import Mathlib

/-!
Shallow embedding of the core replay/connect components of the
TimelyDataflow `diagnostics` repository.

Embedded source files:
* `src/connect/src/receive/replaywithshutdown.rs` — the
  `replay_with_shutdown_into` operator: first-activation capability seed,
  draining of per-source event streams while running, and the
  shutdown-triggered frontier retraction loop.
* `src/connect/src/receive/connect.rs` — `make_readers`: the per-worker slot
  partitioner over TCP sockets / file paths.

Modelling conventions:
* Timestamps are `Nat` (the repository instantiates the operator at a totally
  ordered timestamp type; `Default::default()` is the minimum, modelled as 0).
* Progress deltas are `Int` (the Rust code uses `i64`; none of the claims
  involve overflow of 64-bit counters, all deltas stay tiny).
* `timely::progress::frontier::MutableAntichain` accumulates `(time, delta)`
  updates and exposes the frontier: the minimal timestamps whose accumulated
  count is positive.  We represent the accumulated state by the list of all
  updates ever applied (`update_iter` is list append); the accumulated count
  function and the frontier are representation independent, so this is
  observationally the same as timely's consolidated representation.
* The event-stream iterators deliver an externally chosen finite batch of
  events per activation (nonblocking drain); a run is a list of activation
  inputs, each carrying the shutdown-flag value read in that activation and
  the newly available events of every source.
-/

namespace Diagnostics

/-- Accumulated count of all deltas applied at timestamp `t`.  This is the
net count `MutableAntichain` associates with `t` after every
`update_iter` call performed so far. -/
def count : List (Nat × Int) → Nat → Int
  | [], _ => 0
  | p :: rest, t => (if p.1 = t then p.2 else 0) + count rest t

/-- The set of timestamps mentioned by any update ever applied. -/
def keyFinset (a : List (Nat × Int)) : Finset Nat :=
  (a.map Prod.fst).toFinset

/-- Timestamps with positive accumulated count, i.e. the timestamps the
`MutableAntichain` still tracks as outstanding. -/
def posTimes (a : List (Nat × Int)) : List Nat :=
  ((a.map Prod.fst).dedup).filter (fun t => decide (0 < count a t))

/-- Minimum of a list of naturals, `none` on the empty list. -/
def minOf : List Nat → Option Nat
  | [] => none
  | x :: xs =>
    match minOf xs with
    | none => some x
    | some y => some (min x y)

/-- The frontier of the antichain.  For a totally ordered timestamp type the
minimal antichain of the positive-count timestamps is the single minimal
such timestamp (timely's `frontier()` restricted to a total order). -/
def frontierMin (a : List (Nat × Int)) : Option Nat :=
  minOf (posTimes a)

/-- Total outstanding positive count: the sum over all timestamps of the
positive part of the accumulated count.  This is the termination measure of
the shutdown retraction loop. -/
def posSum (a : List (Nat × Int)) : Nat :=
  (keyFinset a).sum (fun t => (count a t).toNat)

/-- Result of running the shutdown retraction loop: the final accumulated
antichain state, the progress deltas emitted to `internal[0]` in emission
order, and the number of passes of the `while !antichain.is_empty()` loop. -/
structure RetractResult where
  final : List (Nat × Int)
  emitted : List (Nat × Int)
  passes : Nat
deriving DecidableEq, Repr

/-- One fuel-bounded unfolding of the retraction loop of
`replay_with_shutdown_into` (the `else` branch):

    while !antichain.is_empty() {
        let elements = antichain.frontier().iter().map(|t| (t.clone(), -1)).collect();
        for (t, c) in elements.iter() { internal[0].update(t.clone(), *c); }
        antichain.update_iter(elements);
    }

For a totally ordered timestamp type the frontier is the minimal timestamp
with positive count, so each pass emits a single `(t, -1)`.  `posSum`
strictly decreases at each pass, hence `posSum` units of fuel make this
exactly the unbounded source loop (theorems `retractFuel_extra` and
`retractLoop_frontier_none`). -/
def retractFuel : Nat → List (Nat × Int) → RetractResult
  | 0, a => ⟨a, [], 0⟩
  | fuel + 1, a =>
    match frontierMin a with
    | none => ⟨a, [], 0⟩
    | some t =>
      let r := retractFuel fuel (a ++ [(t, -1)])
      ⟨r.final, (t, -1) :: r.emitted, r.passes + 1⟩

/-- The shutdown retraction loop, run to completion. -/
def retractLoop (a : List (Nat × Int)) : RetractResult :=
  retractFuel (posSum a) a

/-! ### Downstream output buffer

`output` in `replay_with_shutdown_into` is
`PushBuffer::new(PushCounter::new(targets))`; timely's
`dataflow::channels::pushers::buffer::Buffer` holds a current session time
and a payload buffer, sends (flushes) the buffered payloads downstream as
one batch when the session time changes or the buffer fills, and `cease`
flushes the remainder.  `sent` records the batches pushed downstream, in
push order. -/

structure OutBuf (D : Type) where
  time : Option Nat
  buf : List D
  sent : List (Nat × List D)
deriving DecidableEq, Repr

/-- `Buffer` allocates its payload vector with
`Message::<T, D>::default_length()` capacity and flushes when full. -/
def bufferCapacity : Nat := 1024

/-- `Buffer::flush`: if the buffer is nonempty, push its contents downstream
as one batch at the current session time.  (A nonempty buffer always has a
session time; see the invariant `BufOk`.) -/
def flushBuf {D : Type} (b : OutBuf D) : OutBuf D :=
  match b.time with
  | none => b
  | some t => if b.buf.isEmpty then b else ⟨some t, [], b.sent ++ [(t, b.buf)]⟩

/-- `Buffer::give`: append one payload, flushing if the buffer reaches its
capacity. -/
def give {D : Type} (b : OutBuf D) (d : D) : OutBuf D :=
  let b2 : OutBuf D := ⟨b.time, b.buf ++ [d], b.sent⟩
  if b2.buf.length = bufferCapacity then flushBuf b2 else b2

/-- `Buffer::session`: flush if the current session time differs from the
requested one, then set the session time. -/
def session {D : Type} (b : OutBuf D) (t : Nat) : OutBuf D :=
  if b.time = some t then b
  else
    let b2 := flushBuf b
    ⟨some t, b2.buf, b2.sent⟩

/-- `Session::give_iterator`: give each payload in order. -/
def giveIterator {D : Type} (b : OutBuf D) (ds : List D) : OutBuf D :=
  ds.foldl give b

/-- `Buffer::cease`: flush and clear the session time. -/
def cease {D : Type} (b : OutBuf D) : OutBuf D :=
  let b2 := flushBuf b
  ⟨none, b2.buf, b2.sent⟩

/-- Well-formedness of the push buffer: payloads are only ever buffered
inside a session, so a nonempty buffer has a session time.  (`Buffer::flush`
in timely unwraps `self.time` under exactly this invariant.) -/
def BufOk {D : Type} (b : OutBuf D) : Prop :=
  b.buf = [] ∨ b.time ≠ none

/-! ### The replay operator

`replay_with_shutdown_into` state, activation inputs, and per-activation
behaviour, following the operator closure of
`src/connect/src/receive/replaywithshutdown.rs` lines 73–127. -/

/-- `timely::dataflow::operators::capture::event::Event`: a decoded log
event from one source, either a batch of progress deltas or a batch of
message payloads at one timestamp. -/
inductive REvent (D : Type) where
  | progress (updates : List (Nat × Int))
  | messages (time : Nat) (data : List D)
deriving DecidableEq, Repr

/-- Operator state carried across activations: the `started` flag, the
`MutableAntichain` (as its accumulated update list), and the push buffer.
The event-stream iterators are externalised: the events each one yields per
activation are part of the activation input. -/
structure OpState (D : Type) where
  started : Bool
  antichain : List (Nat × Int)
  output : OutBuf D
deriving DecidableEq, Repr

/-- What one activation observes: the value of the shutdown flag
(`is_running.load(Ordering::Acquire)`) and, for every source, the events its
iterator yields before returning `None` (the nonblocking drain). -/
structure ActInput (D : Type) where
  running : Bool
  avail : List (List (REvent D))
deriving DecidableEq, Repr

/-- State at operator construction: not started, empty `MutableAntichain`
(`MutableAntichain::new()`), empty push buffer. -/
def freshState {D : Type} : OpState D := ⟨false, [], ⟨none, [], []⟩⟩

/-- Handling of one decoded event in the running branch (lines 90–98):
`Progress(vec)` is applied to the antichain (`update_iter`) and forwarded
verbatim to `internal[0]` (`extend`); `Messages(time, data)` is given to
`output.session(time)`.  Returns the new state and the deltas emitted to
`internal[0]`. -/
def processEvent {D : Type} (st : OpState D) (ev : REvent D) :
    OpState D × List (Nat × Int) :=
  match ev with
  | .progress vec => (⟨st.started, st.antichain ++ vec, st.output⟩, vec)
  | .messages t data =>
    (⟨st.started, st.antichain, giveIterator (session st.output t) data⟩, [])

/-- The `while let Some(event) = event_stream.next()` drain of one source. -/
def processEvents {D : Type} (st : OpState D) :
    List (REvent D) → OpState D × List (Nat × Int)
  | [] => (st, [])
  | ev :: evs =>
    let p := processEvent st ev
    let q := processEvents p.1 evs
    (q.1, p.2 ++ q.2)

/-- The `for event_stream in event_streams.iter_mut()` loop: drain every
source in index order. -/
def drainAll {D : Type} (st : OpState D) :
    List (List (REvent D)) → OpState D × List (Nat × Int)
  | [] => (st, [])
  | evs :: rest =>
    let p := processEvents st evs
    let q := drainAll p.1 rest
    (q.1, p.2 ++ q.2)

/-- The first-activation capability seed (lines 76–85): if not yet started,
a single delta of `event_streams.len() - 1` at the default timestamp; on
every later activation, nothing. -/
def seedOf {D : Type} (n : Nat) (st : OpState D) : List (Nat × Int) :=
  if st.started then [] else [(0, (n : Int) - 1)]

/-- The branch on the shutdown flag (lines 87–123): while running, drain all
sources and `cease` the output buffer; once stopped, run the retraction loop
on the antichain and leave the output buffer untouched. -/
def activationBody {D : Type} (st : OpState D) (inp : ActInput D) :
    OpState D × List (Nat × Int) :=
  if inp.running then
    let p := drainAll st inp.avail
    (⟨p.1.started, p.1.antichain, cease p.1.output⟩, p.2)
  else
    let r := retractLoop st.antichain
    (⟨st.started, r.final, st.output⟩, r.emitted)

/-- One full activation of the operator closure: apply the seed to both
`internal[0]` and the antichain, set `started`, then run the
running/stopped branch.  Returns the new state and the deltas emitted to
`internal[0]` in emission order. -/
def runActivation {D : Type} (n : Nat) (st : OpState D) (inp : ActInput D) :
    OpState D × List (Nat × Int) :=
  let seed := seedOf n st
  let st1 : OpState D := ⟨true, st.antichain ++ seed, st.output⟩
  let p := activationBody st1 inp
  (p.1, seed ++ p.2)

/-- A run of the operator: a sequence of activations.  Returns the final
state and the concatenation of all deltas ever emitted to `internal[0]`. -/
def runOp {D : Type} (n : Nat) (st : OpState D) :
    List (ActInput D) → OpState D × List (Nat × Int)
  | [] => (st, [])
  | inp :: rest =>
    let p := runActivation n st inp
    let q := runOp n p.1 rest
    (q.1, p.2 ++ q.2)

/-- The message payloads of a decoded event sequence, in decoder order. -/
def messagesOf {D : Type} : List (REvent D) → List D
  | [] => []
  | .progress _ :: evs => messagesOf evs
  | .messages _ data :: evs => data ++ messagesOf evs

/-- Payloads pushed downstream so far, flattened in push order. -/
def emittedPayloads {D : Type} (b : OutBuf D) : List D :=
  (b.sent.map Prod.snd).flatten

/-- Payloads pushed downstream followed by the ones still buffered: the
quantity preserved by every buffer operation. -/
def payloadTrace {D : Type} (b : OutBuf D) : List D :=
  emittedPayloads b ++ b.buf

/-- Specification-side order of delivery, from the spec's words: per
activation in order, per source in index order, that source's Messages
payloads in decoder order; nothing after shutdown is observed. -/
def expectedMessages {D : Type} (inputs : List (ActInput D)) : List D :=
  (inputs.map
    (fun i => if i.running then (i.avail.map messagesOf).flatten else [])).flatten

/-! ### `make_readers`: the per-worker slot partitioner

`src/connect/src/receive/connect.rs` lines 78–104.  Slots are `Option`s;
`make_readers` enumerates them, keeps positions `i` with
`i % worker_peers == worker_index`, and `take().expect(...)`s each kept
slot — a `None` slot panics (modelled as the `Option.none` result).  The
file variant additionally opens each claimed path; `File::open` failure is
propagated with `?` as a recoverable `ConnectError` (modelled as
`FileResult.ioerr`), and the lazy `collect::<Result<_, _>>` stops at the
first failure. -/

/-- The socket variant pipeline, enumerating from position `i`.  `none`
models the `expect("socket missing, ...")` panic; `some (readers, slots)`
returns the claimed sockets in position order and the updated slot vector
(claimed slots are now empty). -/
def claimFrom {α : Type} (w W : Nat) :
    Nat → List (Option α) → Option (List α × List (Option α))
  | _, [] => some ([], [])
  | i, s :: rest =>
    if i % W = w then
      match s with
      | none => none
      | some v =>
        match claimFrom w W (i + 1) rest with
        | none => none
        | some p => some (v :: p.1, none :: p.2)
    else
      match claimFrom w W (i + 1) rest with
      | none => none
      | some p => some (p.1, s :: p.2)

/-- `make_readers` on `ReplaySource::Tcp`. -/
def makeReadersTcp {α : Type} (slots : List (Option α)) (w W : Nat) :
    Option (List α × List (Option α)) :=
  claimFrom w W 0 slots

/-- Outcome of the file variant: a fatal panic (empty slot), a recoverable
`ConnectError` returned to the caller (file open failure), or success. -/
inductive FileResult (α : Type) where
  | panic : FileResult α
  | ioerr : FileResult α
  | ok : α → FileResult α
deriving DecidableEq, Repr

/-- The file variant pipeline (lines 92–102), enumerating from position
`i`.  `openF` is the `File::open` environment: `none` is an I/O error.
Iterator laziness means a panic or an open error stops the pipeline at that
element. -/
def openFrom {β γ : Type} (openF : β → Option γ) (w W : Nat) :
    Nat → List (Option β) → FileResult (List γ × List (Option β))
  | _, [] => .ok ([], [])
  | i, s :: rest =>
    if i % W = w then
      match s with
      | none => .panic
      | some p =>
        match openF p with
        | none => .ioerr
        | some f =>
          match openFrom openF w W (i + 1) rest with
          | .panic => .panic
          | .ioerr => .ioerr
          | .ok q => .ok (f :: q.1, none :: q.2)
    else
      match openFrom openF w W (i + 1) rest with
      | .panic => .panic
      | .ioerr => .ioerr
      | .ok q => .ok (q.1, s :: q.2)

/-- `make_readers` on `ReplaySource::Files`. -/
def makeReadersFiles {β γ : Type} (openF : β → Option γ)
    (slots : List (Option β)) (w W : Nat) :
    FileResult (List γ × List (Option β)) :=
  openFrom openF w W 0 slots

/-- The positions a worker claims: exactly those `i < len` with
`i % W == w` (the `filter` of `make_readers`). -/
def selectedPositions (len W w : Nat) : List Nat :=
  (List.range len).filter (fun i => i % W == w)

/-! ### Basic lemmas about `count`, `posTimes`, `frontierMin`, `posSum` -/

@[simp]
theorem count_nil (t : Nat) : count [] t = 0 := rfl

theorem count_cons (p : Nat × Int) (a : List (Nat × Int)) (t : Nat) :
    count (p :: a) t = (if p.1 = t then p.2 else 0) + count a t := rfl

theorem count_append (a b : List (Nat × Int)) (t : Nat) :
    count (a ++ b) t = count a t + count b t := by
  induction a with
  | nil => simp
  | cons p rest ih => simp [count_cons, ih]; ring

theorem count_singleton (u : Nat) (d : Int) (t : Nat) :
    count [(u, d)] t = if u = t then d else 0 := by
  simp [count_cons]

theorem count_eq_zero_of_not_mem (a : List (Nat × Int)) (t : Nat)
    (h : t ∉ a.map Prod.fst) : count a t = 0 := by
  induction a with
  | nil => rfl
  | cons p rest ih =>
    simp only [List.map_cons, List.mem_cons, not_or] at h
    rw [count_cons, if_neg (fun hc => h.1 hc.symm), ih h.2, add_zero]

theorem mem_map_fst_of_count_ne_zero (a : List (Nat × Int)) (t : Nat)
    (h : count a t ≠ 0) : t ∈ a.map Prod.fst := by
  by_contra hc
  exact h (count_eq_zero_of_not_mem a t hc)

theorem mem_posTimes_iff (a : List (Nat × Int)) (t : Nat) :
    t ∈ posTimes a ↔ 0 < count a t := by
  constructor
  · intro h
    have := List.of_mem_filter h
    simpa using this
  · intro h
    apply List.mem_filter.mpr
    refine ⟨List.mem_dedup.mpr ?_, by simpa using h⟩
    exact mem_map_fst_of_count_ne_zero a t (by omega)

theorem minOf_mem (l : List Nat) (t : Nat) (h : minOf l = some t) : t ∈ l := by
  induction l generalizing t with
  | nil => simp [minOf] at h
  | cons x xs ih =>
    simp only [minOf] at h
    cases hm : minOf xs with
    | none => rw [hm] at h; simp at h; simp [h]
    | some y =>
      rw [hm] at h
      simp only [Option.some.injEq] at h
      rcases min_choice x y with hxy | hxy <;> rw [hxy] at h
      · simp [h]
      · exact List.mem_cons_of_mem x (ih t (by rw [hm, h]))

theorem minOf_eq_none_iff (l : List Nat) : minOf l = none ↔ l = [] := by
  cases l with
  | nil => simp [minOf]
  | cons x xs =>
    simp only [minOf]
    constructor
    · intro h
      cases hm : minOf xs <;> rw [hm] at h <;> simp at h
    · intro h; simp at h

theorem frontierMin_pos (a : List (Nat × Int)) (t : Nat)
    (h : frontierMin a = some t) : 0 < count a t :=
  (mem_posTimes_iff a t).mp (minOf_mem _ t h)

theorem frontierMin_none_count_nonpos (a : List (Nat × Int)) (t : Nat)
    (h : frontierMin a = none) : count a t ≤ 0 := by
  have hpt : posTimes a = [] := (minOf_eq_none_iff _).mp h
  by_contra hc
  push_neg at hc
  have := (mem_posTimes_iff a t).mpr hc
  rw [hpt] at this
  simp at this

theorem frontierMin_eq_none_of_nonpos (a : List (Nat × Int))
    (h : ∀ t, count a t ≤ 0) : frontierMin a = none := by
  rw [frontierMin, minOf_eq_none_iff]
  by_contra hc
  rcases List.exists_mem_of_ne_nil _ hc with ⟨t, ht⟩
  have := (mem_posTimes_iff a t).mp ht
  have := h t
  omega

theorem mem_keyFinset_of_count_ne_zero (a : List (Nat × Int)) (t : Nat)
    (h : count a t ≠ 0) : t ∈ keyFinset a := by
  rw [keyFinset, List.mem_toFinset]
  exact mem_map_fst_of_count_ne_zero a t h

theorem posSum_eq_zero_iff (a : List (Nat × Int)) :
    posSum a = 0 ↔ ∀ t, count a t ≤ 0 := by
  rw [posSum, Finset.sum_eq_zero_iff]
  constructor
  · intro h t
    by_cases hm : t ∈ keyFinset a
    · have := h t hm
      omega
    · rw [keyFinset, List.mem_toFinset] at hm
      rw [count_eq_zero_of_not_mem a t hm]
  · intro h t _
    have := h t
    omega

theorem keyFinset_append (a b : List (Nat × Int)) :
    keyFinset (a ++ b) = keyFinset a ∪ keyFinset b := by
  simp [keyFinset]

/-- One retraction pass strictly decreases the total outstanding positive
count: appending `(t, -1)` at a timestamp with positive accumulated count
lowers `posSum` by exactly one. -/
theorem posSum_append_retract (a : List (Nat × Int)) (t : Nat)
    (h : 0 < count a t) :
    posSum (a ++ [(t, -1)]) + 1 = posSum a := by
  have hmem : t ∈ keyFinset a :=
    mem_keyFinset_of_count_ne_zero a t (by omega)
  have hkeys : keyFinset (a ++ [(t, -1)]) = keyFinset a := by
    rw [keyFinset_append]
    have : keyFinset [(t, -1)] = {t} := by simp [keyFinset]
    rw [this]
    exact Finset.union_eq_left.mpr (Finset.singleton_subset_iff.mpr hmem)
  rw [posSum, posSum, hkeys]
  rw [← Finset.sum_erase_add _ _ hmem, ← Finset.sum_erase_add _ _ hmem]
  have hcongr : ∀ s ∈ (keyFinset a).erase t,
      (count (a ++ [(t, -1)]) s).toNat = (count a s).toNat := by
    intro s hs
    have hst : s ≠ t := Finset.ne_of_mem_erase hs
    rw [count_append, count_singleton, if_neg (fun hc => hst hc.symm), add_zero]
  rw [Finset.sum_congr rfl hcongr]
  have hct : count (a ++ [(t, -1)]) t = count a t - 1 := by
    rw [count_append, count_singleton, if_pos rfl]
    ring
  rw [hct]
  omega

/-! ### The retraction loop runs to completion -/

/-- Core specification of the fueled retraction loop, for sufficient fuel:
the number of passes equals the total outstanding positive count, and the
final accumulated counts are the original counts with every positive count
driven down to exactly zero (nonpositive counts are never touched — they
never appear in the frontier). -/
theorem retractFuel_spec (fuel : Nat) :
    ∀ a : List (Nat × Int), posSum a ≤ fuel →
      (retractFuel fuel a).passes = posSum a ∧
      (∀ t, count (retractFuel fuel a).final t =
        if 0 < count a t then 0 else count a t) := by
  induction fuel with
  | zero =>
    intro a ha
    have hz : posSum a = 0 := Nat.le_zero.mp ha
    have hnp := (posSum_eq_zero_iff a).mp hz
    refine ⟨by simp [retractFuel, hz], ?_⟩
    intro t
    have := hnp t
    simp only [retractFuel]
    rw [if_neg (by omega)]
  | succ fuel ih =>
    intro a ha
    cases hf : frontierMin a with
    | none =>
      have hnp := frontierMin_none_count_nonpos a
      have hz : posSum a = 0 := (posSum_eq_zero_iff a).mpr (fun t => hnp t hf)
      refine ⟨by simp [retractFuel, hf, hz], ?_⟩
      intro t
      have := hnp t hf
      simp only [retractFuel, hf]
      rw [if_neg (by omega)]
    | some t =>
      have hpos : 0 < count a t := frontierMin_pos a t hf
      have hdec := posSum_append_retract a t hpos
      have hle : posSum (a ++ [(t, -1)]) ≤ fuel := by omega
      obtain ⟨ihp, ihc⟩ := ih (a ++ [(t, -1)]) hle
      constructor
      · simp only [retractFuel, hf]
        rw [ihp]
        omega
      · intro s
        simp only [retractFuel, hf]
        have hc := ihc s
        by_cases hst : s = t
        · have hcs : count (a ++ [(t, -1)]) s = count a s - 1 := by
            rw [count_append, count_singleton, if_pos hst.symm]
            ring
          rw [hcs] at hc
          have hpos2 : 0 < count a s := by rw [hst]; exact hpos
          rw [hc, if_pos hpos2]
          by_cases h1 : (0 : Int) < count a s - 1
          · rw [if_pos h1]
          · rw [if_neg h1]
            omega
        · have hcs : count (a ++ [(t, -1)]) s = count a s := by
            rw [count_append, count_singleton,
              if_neg (fun hc2 : t = s => hst hc2.symm)]
            ring
          rw [hcs] at hc
          exact hc


theorem posSum_pos_of_count_pos (a : List (Nat × Int)) (t : Nat)
    (h : 0 < count a t) : 0 < posSum a := by
  rcases Nat.eq_zero_or_pos (posSum a) with hz | hp
  · have := (posSum_eq_zero_iff a).mp hz t
    omega
  · exact hp

/-- The antichain state after the retraction loop is the original state with
exactly the emitted retraction deltas appended: the loop applies to the
antichain precisely the updates it emits to `internal[0]`. -/
theorem retractFuel_final_eq (fuel : Nat) :
    ∀ a : List (Nat × Int),
      (retractFuel fuel a).final = a ++ (retractFuel fuel a).emitted := by
  induction fuel with
  | zero => intro a; simp [retractFuel]
  | succ fuel ih =>
    intro a
    cases hf : frontierMin a with
    | none => simp [retractFuel, hf]
    | some t =>
      simp only [retractFuel, hf]
      rw [ih (a ++ [(t, -1)])]
      simp

/-- Every delta emitted by the retraction loop is a retraction `(t, -1)`. -/
theorem retractFuel_emitted_neg_one (fuel : Nat) :
    ∀ a : List (Nat × Int), ∀ d ∈ (retractFuel fuel a).emitted, d.2 = -1 := by
  induction fuel with
  | zero => intro a d hd; simp [retractFuel] at hd
  | succ fuel ih =>
    intro a d hd
    cases hf : frontierMin a with
    | none => rw [retractFuel, hf] at hd; simp at hd
    | some t =>
      rw [retractFuel, hf] at hd
      simp only [List.mem_cons] at hd
      rcases hd with hd | hd
      · rw [hd]
      · exact ih (a ++ [(t, -1)]) d hd

/-- Any two sufficient fuel values give the same loop result: `retractFuel`
with fuel at least `posSum` is the unbounded `while` loop of the source. -/
theorem retractFuel_congr (f : Nat) :
    ∀ (g : Nat) (a : List (Nat × Int)), posSum a ≤ f → posSum a ≤ g →
      retractFuel f a = retractFuel g a := by
  induction f with
  | zero =>
    intro g a hf hg
    have hz : posSum a = 0 := Nat.le_zero.mp hf
    have hn : frontierMin a = none :=
      frontierMin_eq_none_of_nonpos a ((posSum_eq_zero_iff a).mp hz)
    cases g with
    | zero => rfl
    | succ g => simp [retractFuel, hn]
  | succ f ih =>
    intro g a hf hg
    cases hft : frontierMin a with
    | none =>
      cases g with
      | zero => simp [retractFuel, hft]
      | succ g => simp [retractFuel, hft]
    | some t =>
      have hpos : 0 < count a t := frontierMin_pos a t hft
      have hps : 0 < posSum a := posSum_pos_of_count_pos a t hpos
      cases g with
      | zero => omega
      | succ g =>
        have hdec := posSum_append_retract a t hpos
        simp only [retractFuel, hft]
        rw [ih g (a ++ [(t, -1)]) (by omega) (by omega)]

theorem retractFuel_extra (f : Nat) (a : List (Nat × Int))
    (h : posSum a ≤ f) : retractFuel f a = retractLoop a :=
  retractFuel_congr f (posSum a) a h le_rfl

theorem retractLoop_passes (a : List (Nat × Int)) :
    (retractLoop a).passes = posSum a :=
  (retractFuel_spec (posSum a) a le_rfl).1

theorem retractLoop_count (a : List (Nat × Int)) (t : Nat) :
    count (retractLoop a).final t = if 0 < count a t then 0 else count a t :=
  (retractFuel_spec (posSum a) a le_rfl).2 t

/-- The retraction loop terminates with an empty frontier: its exit
condition `antichain.is_empty()` is reached. -/
theorem retractLoop_frontier_none (a : List (Nat × Int)) :
    frontierMin (retractLoop a).final = none := by
  apply frontierMin_eq_none_of_nonpos
  intro t
  rw [retractLoop_count a t]
  by_cases h : 0 < count a t
  · rw [if_pos h]
  · rw [if_neg h]
    omega

theorem retractLoop_final_eq (a : List (Nat × Int)) :
    (retractLoop a).final = a ++ (retractLoop a).emitted :=
  retractFuel_final_eq (posSum a) a

theorem retractLoop_emitted_neg_one (a : List (Nat × Int)) :
    ∀ d ∈ (retractLoop a).emitted, d.2 = -1 :=
  retractFuel_emitted_neg_one (posSum a) a

/-- An empty frontier makes the retraction loop a no-op: no passes, no
emissions, antichain unchanged. -/
theorem retractLoop_noop (a : List (Nat × Int))
    (h : frontierMin a = none) : retractLoop a = ⟨a, [], 0⟩ := by
  have hz : posSum a = 0 :=
    (posSum_eq_zero_iff a).mpr (fun t => frontierMin_none_count_nonpos a t h)
  rw [retractLoop, hz]
  rfl

/-! ### The antichain mirrors `internal[0]`

Every branch of the operator applies to the `MutableAntichain` exactly the
deltas it emits to `internal[0]`, in the same activation: the seed
(lines 80–83), each forwarded `Progress` batch (lines 91–94), and each
retraction pass (lines 112–122). -/

theorem processEvent_antichain {D : Type} (st : OpState D) (ev : REvent D) :
    (processEvent st ev).1.antichain = st.antichain ++ (processEvent st ev).2 := by
  cases ev <;> simp [processEvent]

theorem processEvent_started {D : Type} (st : OpState D) (ev : REvent D) :
    (processEvent st ev).1.started = st.started := by
  cases ev <;> rfl

theorem processEvents_antichain {D : Type} (evs : List (REvent D)) :
    ∀ st : OpState D,
      (processEvents st evs).1.antichain =
        st.antichain ++ (processEvents st evs).2 := by
  induction evs with
  | nil => intro st; simp [processEvents]
  | cons ev evs ih =>
    intro st
    simp only [processEvents]
    rw [ih, processEvent_antichain, List.append_assoc]

theorem processEvents_started {D : Type} (evs : List (REvent D)) :
    ∀ st : OpState D, (processEvents st evs).1.started = st.started := by
  induction evs with
  | nil => intro st; rfl
  | cons ev evs ih =>
    intro st
    simp only [processEvents]
    rw [ih, processEvent_started]

theorem drainAll_antichain {D : Type} (avail : List (List (REvent D))) :
    ∀ st : OpState D,
      (drainAll st avail).1.antichain = st.antichain ++ (drainAll st avail).2 := by
  induction avail with
  | nil => intro st; simp [drainAll]
  | cons evs rest ih =>
    intro st
    simp only [drainAll]
    rw [ih, processEvents_antichain, List.append_assoc]

theorem drainAll_started {D : Type} (avail : List (List (REvent D))) :
    ∀ st : OpState D, (drainAll st avail).1.started = st.started := by
  induction avail with
  | nil => intro st; rfl
  | cons evs rest ih =>
    intro st
    simp only [drainAll]
    rw [ih, processEvents_started]

theorem activationBody_antichain {D : Type} (st : OpState D) (inp : ActInput D) :
    (activationBody st inp).1.antichain =
      st.antichain ++ (activationBody st inp).2 := by
  by_cases h : inp.running
  · simp only [activationBody, if_pos h]
    exact drainAll_antichain inp.avail st
  · simp only [activationBody, if_neg h]
    exact retractLoop_final_eq st.antichain

theorem activationBody_started {D : Type} (st : OpState D) (inp : ActInput D) :
    (activationBody st inp).1.started = st.started := by
  by_cases h : inp.running
  · simp only [activationBody, if_pos h]
    exact drainAll_started inp.avail st
  · simp only [activationBody, if_neg h]

theorem runActivation_antichain {D : Type} (n : Nat) (st : OpState D)
    (inp : ActInput D) :
    (runActivation n st inp).1.antichain =
      st.antichain ++ (runActivation n st inp).2 := by
  simp only [runActivation]
  rw [activationBody_antichain, List.append_assoc]

theorem runActivation_started {D : Type} (n : Nat) (st : OpState D)
    (inp : ActInput D) : (runActivation n st inp).1.started = true := by
  simp only [runActivation]
  rw [activationBody_started]

theorem runOp_antichain {D : Type} (n : Nat) (inputs : List (ActInput D)) :
    ∀ st : OpState D,
      (runOp n st inputs).1.antichain = st.antichain ++ (runOp n st inputs).2 := by
  induction inputs with
  | nil => intro st; simp [runOp]
  | cons inp rest ih =>
    intro st
    simp only [runOp]
    rw [ih, runActivation_antichain, List.append_assoc]

theorem runOp_started_of_started {D : Type} (n : Nat)
    (inputs : List (ActInput D)) :
    ∀ st : OpState D, st.started = true → (runOp n st inputs).1.started = true := by
  induction inputs with
  | nil => intro st h; exact h
  | cons inp rest ih =>
    intro st _
    simp only [runOp]
    exact ih _ (runActivation_started n st inp)

theorem runOp_cons_started {D : Type} (n : Nat) (st : OpState D)
    (inp : ActInput D) (rest : List (ActInput D)) :
    (runOp n st (inp :: rest)).1.started = true := by
  simp only [runOp]
  exact runOp_started_of_started n rest _ (runActivation_started n st inp)

theorem runOp_append {D : Type} (n : Nat) (l1 l2 : List (ActInput D)) :
    ∀ st : OpState D,
      runOp n st (l1 ++ l2) =
        ((runOp n (runOp n st l1).1 l2).1,
          (runOp n st l1).2 ++ (runOp n (runOp n st l1).1 l2).2) := by
  induction l1 with
  | nil => intro st; simp [runOp]
  | cons inp rest ih =>
    intro st
    simp only [List.cons_append, runOp, List.append_eq]
    rw [ih]
    simp [List.append_assoc]

/-! ### Stopped activations -/

theorem runActivation_stopped_output {D : Type} (n : Nat) (st : OpState D)
    (avail : List (List (REvent D))) :
    (runActivation n st (ActInput.mk false avail)).1.output = st.output := by
  simp [runActivation, activationBody]

theorem runActivation_stopped_ignores_avail {D : Type} (n : Nat)
    (st : OpState D) (avail : List (List (REvent D))) :
    runActivation n st (ActInput.mk false avail) =
      runActivation n st (ActInput.mk false []) := rfl

theorem runActivation_stopped_noop {D : Type} (n : Nat) (st : OpState D)
    (avail : List (List (REvent D)))
    (h1 : st.started = true) (h2 : frontierMin st.antichain = none) :
    runActivation n st (ActInput.mk false avail) = (st, []) := by
  have hseed : seedOf n st = [] := by rw [seedOf, if_pos h1]
  have hst1 : (⟨true, st.antichain ++ seedOf n st, st.output⟩ : OpState D) = st := by
    rw [hseed, List.append_nil, ← h1]
  simp only [runActivation]
  rw [hst1, hseed]
  simp only [activationBody, List.nil_append]
  simp only [retractLoop_noop st.antichain h2]
  rfl

/-! ### Payload order through the push buffer -/

theorem flushBuf_time {D : Type} (b : OutBuf D) : (flushBuf b).time = b.time := by
  cases ht : b.time with
  | none => simp [flushBuf, ht]
  | some t =>
    by_cases hb : b.buf.isEmpty
    · simp [flushBuf, ht, hb]
    · simp [flushBuf, ht, hb]

theorem payloadTrace_flushBuf {D : Type} (b : OutBuf D) :
    payloadTrace (flushBuf b) = payloadTrace b := by
  cases ht : b.time with
  | none => simp [flushBuf, ht]
  | some t =>
    by_cases hb : b.buf.isEmpty
    · simp [flushBuf, ht, hb]
    · simp [flushBuf, ht, hb, payloadTrace, emittedPayloads]

theorem flushBuf_buf_of_time_some {D : Type} (b : OutBuf D) (t : Nat)
    (h : b.time = some t) : (flushBuf b).buf = [] := by
  by_cases hb : b.buf.isEmpty
  · simp only [flushBuf, h, hb, if_true]
    exact List.isEmpty_iff.mp hb
  · simp [flushBuf, h, hb]

theorem give_time {D : Type} (b : OutBuf D) (d : D) :
    (give b d).time = b.time := by
  by_cases h : b.buf.length + 1 = bufferCapacity
  · simp only [give, List.length_append, List.length_cons, List.length_nil,
      Nat.zero_add, h, if_true]
    rw [flushBuf_time]
  · simp only [give, List.length_append, List.length_cons, List.length_nil]
    rw [if_neg (by simpa using h)]

theorem payloadTrace_give {D : Type} (b : OutBuf D) (d : D) :
    payloadTrace (give b d) = payloadTrace b ++ [d] := by
  by_cases h : b.buf.length + 1 = bufferCapacity
  · simp only [give, List.length_append, List.length_cons, List.length_nil,
      Nat.zero_add, h, if_true]
    rw [payloadTrace_flushBuf]
    simp [payloadTrace, emittedPayloads]
  · simp only [give, List.length_append, List.length_cons, List.length_nil]
    rw [if_neg (by simpa using h)]
    simp [payloadTrace, emittedPayloads]

theorem giveIterator_time {D : Type} (ds : List D) :
    ∀ b : OutBuf D, (giveIterator b ds).time = b.time := by
  induction ds with
  | nil => intro b; rfl
  | cons d ds ih =>
    intro b
    simp only [giveIterator, List.foldl_cons] at ih ⊢
    rw [ih, give_time]

theorem payloadTrace_giveIterator {D : Type} (ds : List D) :
    ∀ b : OutBuf D, payloadTrace (giveIterator b ds) = payloadTrace b ++ ds := by
  induction ds with
  | nil => intro b; simp [giveIterator]
  | cons d ds ih =>
    intro b
    simp only [giveIterator, List.foldl_cons] at ih ⊢
    rw [ih, payloadTrace_give, List.append_assoc]
    rfl

theorem session_time {D : Type} (b : OutBuf D) (t : Nat) :
    (session b t).time = some t := by
  by_cases h : b.time = some t
  · simp [session, h]
  · simp [session, h]

theorem payloadTrace_session {D : Type} (b : OutBuf D) (t : Nat) :
    payloadTrace (session b t) = payloadTrace b := by
  by_cases h : b.time = some t
  · simp [session, h]
  · simp only [session, h, if_false]
    rw [← payloadTrace_flushBuf b]
    rfl

theorem payloadTrace_cease {D : Type} (b : OutBuf D) :
    payloadTrace (cease b) = payloadTrace b := by
  rw [← payloadTrace_flushBuf b]
  rfl

theorem cease_buf {D : Type} (b : OutBuf D) (h : BufOk b) :
    (cease b).buf = [] := by
  rcases h with h | h
  · show (flushBuf b).buf = []
    cases ht : b.time with
    | none => simp [flushBuf, ht, h]
    | some t => exact flushBuf_buf_of_time_some b t ht
  · cases ht : b.time with
    | none => exact absurd ht h
    | some t =>
      show (flushBuf b).buf = []
      exact flushBuf_buf_of_time_some b t ht

theorem emittedPayloads_of_buf_nil {D : Type} (b : OutBuf D) (h : b.buf = []) :
    emittedPayloads b = payloadTrace b := by
  rw [payloadTrace, h, List.append_nil]

theorem messagesOf_cons {D : Type} (ev : REvent D) (evs : List (REvent D)) :
    messagesOf (ev :: evs) = messagesOf [ev] ++ messagesOf evs := by
  cases ev <;> simp [messagesOf]

theorem messagesOf_append {D : Type} (l1 l2 : List (REvent D)) :
    messagesOf (l1 ++ l2) = messagesOf l1 ++ messagesOf l2 := by
  induction l1 with
  | nil => simp [messagesOf]
  | cons ev l1 ih =>
    rw [List.cons_append, messagesOf_cons, messagesOf_cons ev l1, ih,
      List.append_assoc]

theorem processEvent_trace {D : Type} (st : OpState D) (ev : REvent D) :
    payloadTrace (processEvent st ev).1.output =
      payloadTrace st.output ++ messagesOf [ev] := by
  cases ev with
  | progress vec => simp [processEvent, messagesOf]
  | messages t data =>
    simp [processEvent, messagesOf, payloadTrace_giveIterator,
      payloadTrace_session]

theorem processEvent_bufok {D : Type} (st : OpState D) (ev : REvent D)
    (h : BufOk st.output) : BufOk (processEvent st ev).1.output := by
  cases ev with
  | progress vec => exact h
  | messages t data =>
    refine Or.inr ?_
    show (giveIterator (session st.output t) data).time ≠ none
    rw [giveIterator_time, session_time]
    simp

theorem processEvents_trace {D : Type} (evs : List (REvent D)) :
    ∀ st : OpState D,
      payloadTrace (processEvents st evs).1.output =
        payloadTrace st.output ++ messagesOf evs := by
  induction evs with
  | nil => intro st; simp [processEvents, messagesOf]
  | cons ev evs ih =>
    intro st
    simp only [processEvents]
    rw [ih, processEvent_trace, messagesOf_cons ev evs]
    simp [messagesOf]

theorem processEvents_bufok {D : Type} (evs : List (REvent D)) :
    ∀ st : OpState D, BufOk st.output → BufOk (processEvents st evs).1.output := by
  induction evs with
  | nil => intro st h; exact h
  | cons ev evs ih =>
    intro st h
    simp only [processEvents]
    exact ih _ (processEvent_bufok st ev h)

theorem drainAll_trace {D : Type} (avail : List (List (REvent D))) :
    ∀ st : OpState D,
      payloadTrace (drainAll st avail).1.output =
        payloadTrace st.output ++ (avail.map messagesOf).flatten := by
  induction avail with
  | nil => intro st; simp [drainAll]
  | cons evs rest ih =>
    intro st
    simp only [drainAll, List.map_cons, List.flatten_cons]
    rw [ih, processEvents_trace, List.append_assoc]

theorem drainAll_bufok {D : Type} (avail : List (List (REvent D))) :
    ∀ st : OpState D, BufOk st.output → BufOk (drainAll st avail).1.output := by
  induction avail with
  | nil => intro st h; exact h
  | cons evs rest ih =>
    intro st h
    simp only [drainAll]
    exact ih _ (processEvents_bufok evs st h)

theorem activationBody_output_running {D : Type} (st : OpState D)
    (inp : ActInput D) (hr : inp.running = true) :
    (activationBody st inp).1.output = cease (drainAll st inp.avail).1.output := by
  simp [activationBody, hr]

theorem activationBody_output_stopped {D : Type} (st : OpState D)
    (inp : ActInput D) (hr : inp.running = false) :
    (activationBody st inp).1.output = st.output := by
  simp [activationBody, hr]

/-- Downstream message emission per activation: a stopped activation pushes
nothing; a running activation pushes exactly the drained messages of its
sources, in per-activation, per-source, decoder order, and leaves the
buffer flushed. -/
theorem runActivation_buf_messages {D : Type} (n : Nat) (st : OpState D)
    (inp : ActInput D) (h : st.output.buf = []) :
    (runActivation n st inp).1.output.buf = [] ∧
    emittedPayloads (runActivation n st inp).1.output =
      emittedPayloads st.output ++
        (if inp.running then (inp.avail.map messagesOf).flatten else []) := by
  have hok : BufOk st.output := Or.inl h
  by_cases hr : inp.running
  · have hout := activationBody_output_running
      (⟨true, st.antichain ++ seedOf n st, st.output⟩ : OpState D) inp hr
    have hdok : BufOk (drainAll
        (⟨true, st.antichain ++ seedOf n st, st.output⟩ : OpState D)
        inp.avail).1.output := drainAll_bufok inp.avail _ hok
    have hbuf : (runActivation n st inp).1.output.buf = [] := by
      show (activationBody _ inp).1.output.buf = []
      rw [hout]
      exact cease_buf _ hdok
    refine ⟨hbuf, ?_⟩
    have htr : payloadTrace (runActivation n st inp).1.output =
        payloadTrace st.output ++ (inp.avail.map messagesOf).flatten := by
      show payloadTrace (activationBody _ inp).1.output = _
      rw [hout, payloadTrace_cease, drainAll_trace]
    rw [emittedPayloads_of_buf_nil _ hbuf, htr, payloadTrace, h,
      List.append_nil, if_pos hr]
  · have hr2 : inp.running = false := by
      cases hi : inp.running
      · rfl
      · exact absurd hi hr
    have hout := activationBody_output_stopped
      (⟨true, st.antichain ++ seedOf n st, st.output⟩ : OpState D) inp hr2
    have hbuf : (runActivation n st inp).1.output.buf = [] := by
      show (activationBody _ inp).1.output.buf = []
      rw [hout]
      exact h
    refine ⟨hbuf, ?_⟩
    have : (runActivation n st inp).1.output = st.output := hout
    rw [this, if_neg hr, List.append_nil]

/-- Downstream message emission over a whole run, from a flushed buffer:
exactly the specification-side `expectedMessages`, and the buffer ends
flushed. -/
theorem runOp_buf_messages {D : Type} (n : Nat) (inputs : List (ActInput D)) :
    ∀ st : OpState D, st.output.buf = [] →
      (runOp n st inputs).1.output.buf = [] ∧
      emittedPayloads (runOp n st inputs).1.output =
        emittedPayloads st.output ++ expectedMessages inputs := by
  induction inputs with
  | nil =>
    intro st h
    exact ⟨h, by simp [runOp, expectedMessages]⟩
  | cons inp rest ih =>
    intro st h
    obtain ⟨h1, h2⟩ := runActivation_buf_messages n st inp h
    obtain ⟨h3, h4⟩ := ih _ h1
    simp only [runOp]
    refine ⟨h3, ?_⟩
    rw [h4, h2]
    simp only [expectedMessages, List.map_cons, List.flatten_cons,
      List.append_assoc]

/-! ### Partitioner lemmas -/

/-- If a slot at a position selected for this worker is already empty, the
`take().expect(...)` pipeline panics. -/
theorem claimFrom_none_of_empty_selected {α : Type} (slots : List (Option α)) :
    ∀ (w W i0 j : Nat), slots[j]? = some none → (i0 + j) % W = w →
      claimFrom w W i0 slots = none := by
  induction slots with
  | nil => intro w W i0 j hj _; simp at hj
  | cons s rest ih =>
    intro w W i0 j hj hsel
    cases j with
    | zero =>
      simp only [List.getElem?_cons_zero, Option.some.injEq] at hj
      subst hj
      have hs : i0 % W = w := by simpa using hsel
      simp [claimFrom, hs]
    | succ j =>
      simp only [List.getElem?_cons_succ] at hj
      have hrec := ih w W (i0 + 1) j hj
        (by rw [show i0 + 1 + j = i0 + (j + 1) by omega]; exact hsel)
      simp only [claimFrom]
      by_cases hs : i0 % W = w
      · rw [if_pos hs]
        cases s
        · rfl
        · rw [hrec]
      · rw [if_neg hs, hrec]

/-- Shape of a successful claim: the slot vector keeps its length, every
selected position is left empty, and every unselected position is
untouched. -/
theorem claimFrom_some_spec {α : Type} (slots : List (Option α)) :
    ∀ (w W i0 : Nat) (rs : List α) (slots' : List (Option α)),
      claimFrom w W i0 slots = some (rs, slots') →
      slots'.length = slots.length ∧
      ∀ j, j < slots.length →
        slots'[j]? = if (i0 + j) % W = w then some none else slots[j]? := by
  induction slots with
  | nil =>
    intro w W i0 rs slots' h
    simp only [claimFrom, Option.some.injEq, Prod.mk.injEq] at h
    obtain ⟨h1, h2⟩ := h
    subst h2
    exact ⟨rfl, by intro j hj; simp at hj⟩
  | cons s rest ih =>
    intro w W i0 rs slots' h
    simp only [claimFrom] at h
    by_cases hs : i0 % W = w
    · rw [if_pos hs] at h
      cases s with
      | none => exact absurd h (by simp)
      | some v =>
        cases hc : claimFrom w W (i0 + 1) rest with
        | none => rw [hc] at h; exact absurd h (by simp)
        | some p =>
          rw [hc] at h
          simp only [Option.some.injEq, Prod.mk.injEq] at h
          obtain ⟨hrs, hsl⟩ := h
          obtain ⟨hlen, hidx⟩ := ih w W (i0 + 1) p.1 p.2 (by rw [hc])
          subst hsl
          refine ⟨by simp [hlen], ?_⟩
          intro j hj
          cases j with
          | zero => simp [hs]
          | succ j =>
            have hj2 : j < rest.length := by simpa using hj
            have hi := hidx j hj2
            simp only [List.getElem?_cons_succ]
            rw [hi, show i0 + 1 + j = i0 + (j + 1) by omega]
    · rw [if_neg hs] at h
      cases hc : claimFrom w W (i0 + 1) rest with
      | none => rw [hc] at h; exact absurd h (by simp)
      | some p =>
        rw [hc] at h
        simp only [Option.some.injEq, Prod.mk.injEq] at h
        obtain ⟨hrs, hsl⟩ := h
        obtain ⟨hlen, hidx⟩ := ih w W (i0 + 1) p.1 p.2 (by rw [hc])
        subst hsl
        refine ⟨by simp [hlen], ?_⟩
        intro j hj
        cases j with
        | zero => simp [hs]
        | succ j =>
          have hj2 : j < rest.length := by simpa using hj
          have hi := hidx j hj2
          simp only [List.getElem?_cons_succ]
          rw [hi, show i0 + 1 + j = i0 + (j + 1) by omega]

/-- On a slot vector with every slot present, the claim succeeds and takes
exactly the values at positions `i % W = w`, in position order, leaving
those positions empty and all others untouched. -/
theorem claimFrom_all_some {α : Type} (slots : List α) :
    ∀ (w W i0 : Nat),
      claimFrom w W i0 (slots.map some) =
        some (((List.enumFrom i0 slots).filter
            (fun p => p.1 % W == w)).map Prod.snd,
          (List.enumFrom i0 slots).map
            (fun p => if p.1 % W == w then none else some p.2)) := by
  induction slots with
  | nil => intro w W i0; rfl
  | cons v rest ih =>
    intro w W i0
    simp only [List.map_cons, claimFrom, List.enumFrom_cons]
    by_cases hs : i0 % W = w
    · rw [if_pos hs, ih]
      simp [hs]
    · rw [if_neg hs, ih]
      simp [hs]

/-- A successful file claim opened every claimed path: any present slot at a
selected position was passed to the open environment and its file is among
the returned readers. -/
theorem openFrom_ok_opened {β γ : Type} (slots : List (Option β)) :
    ∀ (openF : β → Option γ) (w W i0 : Nat) (fs : List γ)
      (slots' : List (Option β)),
      openFrom openF w W i0 slots = .ok (fs, slots') →
      ∀ j, j < slots.length → (i0 + j) % W = w →
        ∀ p, slots[j]? = some (some p) →
          ∃ f, openF p = some f ∧ f ∈ fs := by
  induction slots with
  | nil =>
    intro openF w W i0 fs slots' _ j hj
    simp at hj
  | cons s rest ih =>
    intro openF w W i0 fs slots' h j hj hsel p hp
    simp only [openFrom] at h
    by_cases hs : i0 % W = w
    · rw [if_pos hs] at h
      cases s with
      | none => exact absurd h (by simp)
      | some q =>
        dsimp only at h
        cases hq : openF q with
        | none => rw [hq] at h; exact absurd h (by simp)
        | some f =>
          rw [hq] at h
          cases hr : openFrom openF w W (i0 + 1) rest with
          | panic => rw [hr] at h; exact absurd h (by simp)
          | ioerr => rw [hr] at h; exact absurd h (by simp)
          | ok pr =>
            rw [hr] at h
            simp only [FileResult.ok.injEq, Prod.mk.injEq] at h
            obtain ⟨hfs, _⟩ := h
            cases j with
            | zero =>
              simp only [List.getElem?_cons_zero, Option.some.injEq] at hp
              refine ⟨f, ?_, by rw [← hfs]; simp⟩
              rw [← hp]
              exact hq
            | succ j =>
              simp only [List.getElem?_cons_succ] at hp
              have hj2 : j < rest.length := by simpa using hj
              obtain ⟨f2, hf2, hmem⟩ := ih openF w W (i0 + 1) pr.1 pr.2
                (by rw [hr]) j hj2
                (by rw [show i0 + 1 + j = i0 + (j + 1) by omega]; exact hsel)
                p hp
              exact ⟨f2, hf2, by rw [← hfs]; exact List.mem_cons_of_mem f hmem⟩
    · rw [if_neg hs] at h
      cases hr : openFrom openF w W (i0 + 1) rest with
      | panic => rw [hr] at h; exact absurd h (by simp)
      | ioerr => rw [hr] at h; exact absurd h (by simp)
      | ok pr =>
        rw [hr] at h
        simp only [FileResult.ok.injEq, Prod.mk.injEq] at h
        obtain ⟨hfs, _⟩ := h
        cases j with
        | zero =>
          have : i0 % W = w := by simpa using hsel
          exact absurd this hs
        | succ j =>
          simp only [List.getElem?_cons_succ] at hp
          have hj2 : j < rest.length := by simpa using hj
          obtain ⟨f2, hf2, hmem⟩ := ih openF w W (i0 + 1) pr.1 pr.2
            (by rw [hr]) j hj2
            (by rw [show i0 + 1 + j = i0 + (j + 1) by omega]; exact hsel)
            p hp
          exact ⟨f2, hf2, by rw [← hfs]; exact hmem⟩

/-- If no claimed slot is empty (no contract violation) but some claimed
path fails to open, the file pipeline returns the recoverable error value,
not a panic. -/
theorem openFrom_ioerr {β γ : Type} (slots : List (Option β)) :
    ∀ (openF : β → Option γ) (w W i0 : Nat),
      (∀ j, j < slots.length → (i0 + j) % W = w → slots[j]? ≠ some none) →
      (∃ j, j < slots.length ∧ (i0 + j) % W = w ∧
        ∃ p, slots[j]? = some (some p) ∧ openF p = none) →
      openFrom openF w W i0 slots = .ioerr := by
  induction slots with
  | nil =>
    intro openF w W i0 _ hex
    obtain ⟨j, hj, _⟩ := hex
    simp at hj
  | cons s rest ih =>
    intro openF w W i0 hpres hex
    simp only [openFrom]
    by_cases hs : i0 % W = w
    · rw [if_pos hs]
      cases s with
      | none =>
        have := hpres 0 (by simp) (by simpa using hs)
        simp at this
      | some q =>
        dsimp only
        cases hq : openF q with
        | none => rfl
        | some f =>
          have hex2 : ∃ j, j < rest.length ∧ (i0 + 1 + j) % W = w ∧
              ∃ p, rest[j]? = some (some p) ∧ openF p = none := by
            obtain ⟨j, hj, hsel, p, hp, hop⟩ := hex
            cases j with
            | zero =>
              simp only [List.getElem?_cons_zero, Option.some.injEq] at hp
              rw [hp] at hq
              rw [hq] at hop
              exact absurd hop (by simp)
            | succ j =>
              exact ⟨j, by simpa using hj,
                by rw [show i0 + 1 + j = i0 + (j + 1) by omega]; exact hsel,
                p, by simpa using hp, hop⟩
          have hpres2 : ∀ j, j < rest.length → (i0 + 1 + j) % W = w →
              rest[j]? ≠ some none := by
            intro j hj hsel
            have := hpres (j + 1) (by simpa using hj)
              (by rw [show i0 + (j + 1) = i0 + 1 + j by omega]; exact hsel)
            simpa using this
          dsimp only
          rw [ih openF w W (i0 + 1) hpres2 hex2]
    · rw [if_neg hs]
      have hex2 : ∃ j, j < rest.length ∧ (i0 + 1 + j) % W = w ∧
          ∃ p, rest[j]? = some (some p) ∧ openF p = none := by
        obtain ⟨j, hj, hsel, p, hp, hop⟩ := hex
        cases j with
        | zero =>
          have : i0 % W = w := by simpa using hsel
          exact absurd this hs
        | succ j =>
          exact ⟨j, by simpa using hj,
            by rw [show i0 + 1 + j = i0 + (j + 1) by omega]; exact hsel,
            p, by simpa using hp, hop⟩
      have hpres2 : ∀ j, j < rest.length → (i0 + 1 + j) % W = w →
          rest[j]? ≠ some none := by
        intro j hj hsel
        have := hpres (j + 1) (by simpa using hj)
          (by rw [show i0 + (j + 1) = i0 + 1 + j by omega]; exact hsel)
        simpa using this
      rw [ih openF w W (i0 + 1) hpres2 hex2]

/-- Deltas accumulated from nonnegative entries are nonnegative. -/
theorem count_nonneg_of_entries (a : List (Nat × Int))
    (h : ∀ p ∈ a, 0 ≤ p.2) : ∀ t, 0 ≤ count a t := by
  induction a with
  | nil => intro t; simp
  | cons p rest ih =>
    intro t
    rw [count_cons]
    have h1 : 0 ≤ p.2 := h p (List.mem_cons_self p rest)
    have h2 := ih (fun q hq => h q (List.mem_cons_of_mem p hq)) t
    by_cases hp : p.1 = t
    · rw [if_pos hp]; omega
    · rw [if_neg hp]; omega

/-! ### Stopped-phase helpers -/

/-- Accumulated counts after any stopped activation of a started operator:
positive counts are fully retracted to zero, nonpositive counts are left
untouched. -/
theorem runActivation_stopped_count {D : Type} (n : Nat) (st : OpState D)
    (avail : List (List (REvent D))) (h : st.started = true) (t : Nat) :
    count (runActivation n st (ActInput.mk false avail)).1.antichain t =
      if 0 < count st.antichain t then 0 else count st.antichain t := by
  have hseed : seedOf n st = [] := by rw [seedOf, if_pos h]
  have hre : (runActivation n st (ActInput.mk false avail)).1.antichain =
      (retractLoop (st.antichain ++ seedOf n st)).final := rfl
  rw [hre, hseed, List.append_nil, retractLoop_count]

/-- A started operator with an empty frontier is a no-op under any sequence
of stopped activations. -/
theorem runOp_stopped_noop {D : Type} (n : Nat)
    (ls : List (List (List (REvent D)))) :
    ∀ st : OpState D, st.started = true → frontierMin st.antichain = none →
      runOp n st (ls.map (ActInput.mk false)) = (st, []) := by
  induction ls with
  | nil => intro st _ _; rfl
  | cons l ls ih =>
    intro st h1 h2
    simp only [List.map_cons, runOp,
      runActivation_stopped_noop n st l h1 h2]
    rw [ih st h1 h2]
    rfl

/-- Once shutdown is observed by a started operator whose accumulated counts
are all nonnegative, the stopped phase (one stopped activation followed by
any number of further stopped activations) emits exactly the retraction of
every outstanding count. -/
theorem stopped_phase_count {D : Type} (n : Nat) (mid : OpState D)
    (s0 : List (List (REvent D))) (stops : List (List (List (REvent D))))
    (t : Nat) (hstart : mid.started = true)
    (hpos : ∀ s, 0 ≤ count mid.antichain s) :
    count (runOp n mid
        (ActInput.mk false s0 :: stops.map (ActInput.mk false))).2 t =
      - count mid.antichain t := by
  have hall : ∀ s,
      count (runActivation n mid (ActInput.mk false s0)).1.antichain s = 0 := by
    intro s
    rw [runActivation_stopped_count n mid s0 hstart s]
    have := hpos s
    by_cases hc : 0 < count mid.antichain s
    · rw [if_pos hc]
    · rw [if_neg hc]; omega
  have hfr : frontierMin
      (runActivation n mid (ActInput.mk false s0)).1.antichain = none :=
    frontierMin_eq_none_of_nonpos _ (fun s => le_of_eq (hall s))
  have hstart2 : (runActivation n mid (ActInput.mk false s0)).1.started = true :=
    runActivation_started n mid (ActInput.mk false s0)
  simp only [runOp]
  rw [runOp_stopped_noop n stops _ hstart2 hfr]
  dsimp only
  rw [count_append, count_nil, add_zero]
  have h2 : count (runActivation n mid (ActInput.mk false s0)).1.antichain t =
      count mid.antichain t +
        count (runActivation n mid (ActInput.mk false s0)).2 t := by
    rw [runActivation_antichain, count_append]
  have h3 := hall t
  omega

/-! ### Specification-side message order -/

theorem expectedMessages_cons {D : Type} (x : ActInput D)
    (xs : List (ActInput D)) :
    expectedMessages (x :: xs) =
      (if x.running then (x.avail.map messagesOf).flatten else []) ++
        expectedMessages xs := by
  simp [expectedMessages]

theorem expectedMessages_single_source {D : Type}
    (chunks : List (List (REvent D))) :
    expectedMessages (chunks.map (fun c => ActInput.mk true [c])) =
      messagesOf chunks.flatten := by
  induction chunks with
  | nil => rfl
  | cons c cs ih =>
    rw [List.map_cons, expectedMessages_cons, ih, List.flatten_cons,
      messagesOf_append]
    simp [messagesOf]

/-! ### Claim theorems -/

/-- C9: at every point of the replay operator's execution, the deltas
applied to the internal `MutableAntichain` and the capability deltas
emitted to `internal[0]` coincide — per activation, the new antichain state
is the old one with exactly that activation's emitted deltas appended, and
over any run from construction the tracker's accumulated count equals the
net of all deltas communicated downstream. -/
theorem antichain_mirrors_internal (n : Nat) :
    (∀ (st : OpState Nat) (inp : ActInput Nat),
      (runActivation n st inp).1.antichain =
        st.antichain ++ (runActivation n st inp).2) ∧
    (∀ (inputs : List (ActInput Nat)) (t : Nat),
      count (runOp n (freshState (D := Nat)) inputs).1.antichain t =
        count (runOp n (freshState (D := Nat)) inputs).2 t) := by
  constructor
  · exact fun st inp => runActivation_antichain n st inp
  · intro inputs t
    rw [runOp_antichain]
    rfl

/-- C3: on its first activation, and never again, the operator emits a
single progress delta of `n - 1` at the default (minimum) timestamp and
applies the same delta to its antichain tracker; with 3 sources the seed is
`+2`, with a single source it is `0`. -/
theorem first_activation_seed (n : Nat) :
    seedOf (D := Nat) n freshState = [(0, (n : Int) - 1)] ∧
    (∀ (st : OpState Nat) (inp : ActInput Nat), st.started = true →
      runActivation n st inp = activationBody st inp) ∧
    (∀ (st : OpState Nat) (inp : ActInput Nat),
      (runActivation n st inp).1.started = true) ∧
    (∀ inp : ActInput Nat,
      ((runActivation n (freshState (D := Nat)) inp).1.antichain).take 1 =
        [(0, (n : Int) - 1)]) ∧
    seedOf (D := Nat) 3 freshState = [(0, 2)] ∧
    seedOf (D := Nat) 1 freshState = [(0, 0)] := by
  refine ⟨rfl, ?_, fun st inp => runActivation_started n st inp, ?_,
    by decide, by decide⟩
  · intro st inp h
    have hseed : seedOf n st = [] := by rw [seedOf, if_pos h]
    have hst1 : (⟨true, st.antichain ++ seedOf n st, st.output⟩ :
        OpState Nat) = st := by
      rw [hseed, List.append_nil, ← h]
    simp only [runActivation]
    rw [hst1, hseed]
    rfl
  · intro inp
    rw [runActivation_antichain]
    rfl

/-- C3 witness: a started operator state runs an activation without any
reseeding — the activation equals its seedless body. -/
theorem first_activation_seed_witness :
    runActivation 3 (⟨true, [], ⟨none, [], []⟩⟩ : OpState Nat)
        (ActInput.mk false []) =
      activationBody (⟨true, [], ⟨none, [], []⟩⟩ : OpState Nat)
        (ActInput.mk false []) :=
  (first_activation_seed 3).2.1 ⟨true, [], ⟨none, [], []⟩⟩
    (ActInput.mk false []) rfl

/-- C2 counterexample: with 3 sources and no events, shutdown is observed
with the tracker holding count `+2` at one single distinct timestamp, yet
the retraction loop takes 2 passes — more than one pass per distinct
timestamp present, and the first pass does not remove the entry it reads. -/
theorem retraction_pass_bound_cex :
    (posTimes ((runOp 3 (freshState (D := Nat))
        [ActInput.mk true []]).1.antichain)).length = 1 ∧
    (retractLoop ((runOp 3 (freshState (D := Nat))
        [ActInput.mk true []]).1.antichain)).passes = 2 := by
  constructor <;> decide

/-- C2 amended: the retraction loop always terminates within the single
stopped activation, reaching the empty frontier; the number of passes
equals the total outstanding positive count (the sum over timestamps of
positive accumulated counts), not the number of distinct timestamps. -/
theorem retraction_single_activation (a : List (Nat × Int)) (n : Nat)
    (st : OpState Nat) (avail : List (List (REvent Nat))) :
    (retractLoop a).passes = posSum a ∧
    frontierMin (retractLoop a).final = none ∧
    frontierMin ((runActivation n st
      (ActInput.mk false avail)).1.antichain) = none := by
  refine ⟨retractLoop_passes a, retractLoop_frontier_none a, ?_⟩
  have hre : (runActivation n st (ActInput.mk false avail)).1.antichain =
      (retractLoop (st.antichain ++ seedOf n st)).final := rfl
  rw [hre]
  exact retractLoop_frontier_none _

/-- C1 counterexample: a Progress event carrying a negative delta at a
fresh timestamp is forwarded but never balanced — the frontier is already
empty at shutdown, the retraction loop retracts nothing, and the lifetime
sum of emitted deltas at that timestamp is `-1`, not `0`. -/
theorem lifetime_zero_sum_cex :
    count ((runOp 1 (freshState (D := Nat))
      [ActInput.mk true [[REvent.progress [(1, -1)]]],
        ActInput.mk false []]).2) 1 = -1 := by
  decide

/-- C1 amended: for any run with at least one running activation followed
by shutdown (one stopped activation and any number of further ones), if
every timestamp's accumulated count at the moment shutdown is observed is
nonnegative, then the lifetime sum of all deltas emitted to `internal[0]`
(seed, forwarded progress, shutdown retractions) is zero at every
timestamp. -/
theorem lifetime_zero_sum (n : Nat) (a0 : List (List (REvent Nat)))
    (pres : List (List (List (REvent Nat))))
    (s0 : List (List (REvent Nat)))
    (stops : List (List (List (REvent Nat)))) (t : Nat)
    (hpos : ∀ s : Nat, 0 ≤ count ((runOp n (freshState (D := Nat))
      (ActInput.mk true a0 :: pres.map (ActInput.mk true))).1.antichain) s) :
    count ((runOp n (freshState (D := Nat))
      ((ActInput.mk true a0 :: pres.map (ActInput.mk true)) ++
        (ActInput.mk false s0 :: stops.map (ActInput.mk false)))).2) t = 0 := by
  rw [runOp_append]
  dsimp only
  rw [count_append]
  have hstart : (runOp n (freshState (D := Nat))
      (ActInput.mk true a0 :: pres.map (ActInput.mk true))).1.started = true :=
    runOp_cons_started n (freshState (D := Nat)) (ActInput.mk true a0)
      (pres.map (ActInput.mk true))
  rw [stopped_phase_count n _ s0 stops t hstart hpos]
  have h1 : count (runOp n (freshState (D := Nat))
      (ActInput.mk true a0 :: pres.map (ActInput.mk true))).1.antichain t =
      count (runOp n (freshState (D := Nat))
        (ActInput.mk true a0 :: pres.map (ActInput.mk true))).2 t := by
    rw [runOp_antichain]
    rfl
  omega

/-- C1 witness: two sources, one Progress event `(3, +1)` delivered before
shutdown; the accumulated counts at shutdown are nonnegative and the
lifetime sum at timestamp 3 is zero. -/
theorem lifetime_zero_sum_witness :
    count ((runOp 2 (freshState (D := Nat))
      (([ActInput.mk true [[REvent.progress [(3, 1)]]]] : List (ActInput Nat)) ++
        [ActInput.mk false []])).2) 3 = 0 :=
  lifetime_zero_sum 2 [[REvent.progress [(3, 1)]]] [] [] [] 3
    (count_nonneg_of_entries _ (by decide))

/-- C4 counterexample: if the very first activation already reads the
shutdown flag as stopped, the operator still emits the one-time capability
seed (here `(0, +2)` for 3 sources) in that stopped activation — not only
retraction deltas. -/
theorem post_shutdown_silence_cex :
    (runActivation 3 (freshState (D := Nat)) (ActInput.mk false [])).2 =
      [(0, 2), (0, -1), (0, -1)] ∧
    ¬ (∀ d ∈ (runActivation 3 (freshState (D := Nat))
        (ActInput.mk false [])).2, d.2 = -1) := by
  constructor <;> decide

/-- C4 amended: every stopped activation pushes no Messages downstream
(the output buffer is completely untouched), drains no source (the result
does not depend on the available events), and — apart from the one-time
first-activation seed — emits only retraction deltas `(t, -1)`; once the
operator has started and the frontier is empty, a stopped activation emits
nothing and leaves the state unchanged. -/
theorem post_shutdown_silence (n : Nat) (st : OpState Nat)
    (avail : List (List (REvent Nat))) :
    (runActivation n st (ActInput.mk false avail)).1.output = st.output ∧
    runActivation n st (ActInput.mk false avail) =
      runActivation n st (ActInput.mk false []) ∧
    (st.started = true →
      ∀ d ∈ (runActivation n st (ActInput.mk false avail)).2, d.2 = -1) ∧
    (st.started = true → frontierMin st.antichain = none →
      runActivation n st (ActInput.mk false avail) = (st, [])) := by
  refine ⟨runActivation_stopped_output n st avail,
    runActivation_stopped_ignores_avail n st avail, ?_,
    fun h1 h2 => runActivation_stopped_noop n st avail h1 h2⟩
  intro h d hd
  have hseed : seedOf n st = [] := by rw [seedOf, if_pos h]
  have hint : (runActivation n st (ActInput.mk false avail)).2 =
      (retractLoop (st.antichain ++ seedOf n st)).emitted := by
    show seedOf n st ++ _ = _
    rw [hseed]
    rfl
  rw [hint] at hd
  exact retractLoop_emitted_neg_one _ d hd

/-- C4 witness: a started operator with empty frontier runs a stopped
activation as a complete no-op. -/
theorem post_shutdown_silence_witness :
    runActivation 1 (⟨true, [], ⟨none, [], []⟩⟩ : OpState Nat)
      (ActInput.mk false [[]]) = (⟨true, [], ⟨none, [], []⟩⟩, []) :=
  (post_shutdown_silence 1 ⟨true, [], ⟨none, [], []⟩⟩ [[]]).2.2.2 rfl
    (by decide)

/-- C5: the partitioner's selection: position `i` is claimed by worker `w`
iff `i < N` and `i % W = w`; every position below `N` is claimed by exactly
one worker index (its residue, which is below `W`) — a disjoint covering
partition; and on a full slot vector the claim takes exactly the values at
the selected positions, in order, emptying them. -/
theorem partition_disjoint_cover (N W w i : Nat) (hW : 1 ≤ W) :
    (i ∈ selectedPositions N W w ↔ i < N ∧ i % W = w) ∧
    (i < N → i % W < W ∧ i ∈ selectedPositions N W (i % W)) ∧
    (∀ w1 w2 : Nat, i ∈ selectedPositions N W w1 →
      i ∈ selectedPositions N W w2 → w1 = w2) ∧
    (∀ vals : List Nat,
      makeReadersTcp (vals.map some) w W =
        some (((List.enumFrom 0 vals).filter
            (fun p => p.1 % W == w)).map Prod.snd,
          (List.enumFrom 0 vals).map
            (fun p => if p.1 % W == w then none else some p.2))) := by
  have hmem : ∀ v : Nat, i ∈ selectedPositions N W v ↔ i < N ∧ i % W = v := by
    intro v
    simp [selectedPositions, List.mem_filter, List.mem_range]
  refine ⟨hmem w, ?_, ?_, ?_⟩
  · intro hi
    exact ⟨Nat.mod_lt i (by omega), (hmem (i % W)).mpr ⟨hi, rfl⟩⟩
  · intro w1 w2 h1 h2
    have e1 := ((hmem w1).mp h1).2
    have e2 := ((hmem w2).mp h2).2
    omega
  · intro vals
    exact claimFrom_all_some vals w W 0

/-- C5 witness: with 9 slots and 3 workers, position 5 is claimed by worker
`5 % 3 = 2`. -/
theorem partition_disjoint_cover_witness :
    5 % 3 < 3 ∧ 5 ∈ selectedPositions 9 3 (5 % 3) :=
  (partition_disjoint_cover 9 3 2 5 (by decide)).2.1 (by decide)

/-- C7: claiming an already-empty selected slot makes `make_readers` panic
(no error value is returned), and after a successful claim any overlapping
second claim against the updated slot vector panics — the first call's
returned readers are unaffected, its result being fixed before the second
call runs. -/
theorem double_claim_panics (slots slots' : List (Option Nat)) (rs : List Nat)
    (w W w2 W2 i : Nat) :
    (slots[i]? = some none → i % W = w → makeReadersTcp slots w W = none) ∧
    (makeReadersTcp slots w W = some (rs, slots') → i < slots.length →
      i % W = w → i % W2 = w2 → makeReadersTcp slots' w2 W2 = none) := by
  constructor
  · intro h1 h2
    exact claimFrom_none_of_empty_selected slots w W 0 i h1 (by simpa using h2)
  · intro h1 hi hw hw2
    obtain ⟨hlen, hidx⟩ := claimFrom_some_spec slots w W 0 rs slots' h1
    have hnone : slots'[i]? = some none := by
      have hx := hidx i hi
      rw [if_pos (by simpa using hw)] at hx
      exact hx
    exact claimFrom_none_of_empty_selected slots' w2 W2 0 i hnone
      (by simpa using hw2)

/-- C7 witness: worker 0 of 1 claims all three slots; a second identical
claim against the now-empty vector panics, while the first call's readers
`[10, 20, 30]` were already produced. -/
theorem double_claim_panics_witness :
    makeReadersTcp ([some 10, some 20, some 30] : List (Option Nat)) 0 1 =
      some ([10, 20, 30], [none, none, none]) ∧
    makeReadersTcp ([none, none, none] : List (Option Nat)) 0 1 = none :=
  ⟨by decide,
    (double_claim_panics [some 10, some 20, some 30] [none, none, none]
      [10, 20, 30] 0 1 0 1 0).2 (by decide) (by decide) (by decide)
      (by decide)⟩

/-- C8: the file-backed variant opens every claimed path as part of the
claim (a successful result contains an opened file for each claimed path),
and when no claimed slot is empty but some claimed path fails to open, the
call returns the recoverable error value — not a panic. -/
theorem file_open_error_recoverable (openF : Nat → Option Nat)
    (slots : List (Option Nat)) (w W : Nat) :
    (∀ (fs : List Nat) (slots' : List (Option Nat)),
      makeReadersFiles openF slots w W = .ok (fs, slots') →
      ∀ j, j < slots.length → j % W = w →
        ∀ p, slots[j]? = some (some p) → ∃ f, openF p = some f ∧ f ∈ fs) ∧
    ((∀ j, j < slots.length → j % W = w → slots[j]? ≠ some none) →
      (∃ j, j < slots.length ∧ j % W = w ∧
        ∃ p, slots[j]? = some (some p) ∧ openF p = none) →
      makeReadersFiles openF slots w W = .ioerr) := by
  constructor
  · intro fs slots' h j hj hsel p hp
    exact openFrom_ok_opened slots openF w W 0 fs slots' h j hj
      (by simpa using hsel) p hp
  · intro hpres hex
    apply openFrom_ioerr slots openF w W 0
    · intro j hj hsel
      exact hpres j hj (by simpa using hsel)
    · obtain ⟨j, hj, hsel, hp⟩ := hex
      exact ⟨j, hj, by simpa using hsel, hp⟩

/-- C8 witness: two claimed paths, the second of which fails to open; the
call returns the recoverable error value. -/
theorem file_open_error_recoverable_witness :
    makeReadersFiles (fun p => if p = 7 then none else some (p : Nat))
      ([some 5, some 7] : List (Option Nat)) 0 1 = .ioerr :=
  (file_open_error_recoverable (fun p => if p = 7 then none else some p)
    [some 5, some 7] 0 1).2 (by decide)
    ⟨1, by decide, by decide, 7, by decide, by decide⟩

/-- C6: the payloads the operator pushes downstream over any run are
exactly the drained Messages payloads, per activation in order, per source
in index order, each payload batch in decoder order (and the buffer is
fully flushed at every activation boundary); in particular, for a single
source the downstream payload order equals the source's decoded order. -/
theorem per_source_order (n : Nat) (inputs : List (ActInput Nat))
    (chunks : List (List (REvent Nat))) :
    emittedPayloads (runOp n (freshState (D := Nat)) inputs).1.output =
      expectedMessages inputs ∧
    (runOp n (freshState (D := Nat)) inputs).1.output.buf = [] ∧
    emittedPayloads (runOp 1 (freshState (D := Nat))
        (chunks.map (fun c => ActInput.mk true [c]))).1.output =
      messagesOf chunks.flatten := by
  obtain ⟨h1, h2⟩ := runOp_buf_messages n inputs (freshState (D := Nat)) rfl
  refine ⟨by rw [h2]; rfl, h1, ?_⟩
  obtain ⟨h3, h4⟩ := runOp_buf_messages 1
    (chunks.map (fun c => ActInput.mk true [c])) (freshState (D := Nat)) rfl
  rw [h4, expectedMessages_single_source]
  rfl

/-- C10: with zero sources, the first activation emits `(0, -1)` (the seed
`N - 1 = -1` at the default timestamp) even when already stopped; the
tracker is left with count `-1` at the default timestamp, the frontier is
empty, the retraction loop retracts nothing, and the lifetime delta sum at
the default timestamp is `-1`, not `0`. -/
theorem empty_sources_negative_seed :
    (runOp 0 (freshState (D := Nat)) [ActInput.mk false []]).2 = [(0, -1)] ∧
    count (runOp 0 (freshState (D := Nat))
      [ActInput.mk false []]).1.antichain 0 = -1 ∧
    frontierMin (runOp 0 (freshState (D := Nat))
      [ActInput.mk false []]).1.antichain = none ∧
    (retractLoop ((freshState (D := Nat)).antichain ++
      seedOf 0 (freshState (D := Nat)))).emitted = [] ∧
    count (runOp 0 (freshState (D := Nat)) [ActInput.mk false []]).2 0 = -1 := by
  refine ⟨by decide, by decide, by decide, by decide, by decide⟩
